import Mathlib

/-!
Verification of the obfuskey library: a shallow embedding of its numeric
primitives (`_math.py`), base codec (`utils.py`), key transform
(`_obfuskey.py`), bit-field schema (`_obfusbit_schema.py`) and bit packer
(`_obfusbit.py`), together with proofs and refutations of the specified
properties.  Python's unbounded non-negative integers are modelled by `Nat`
(by `Int` where a value can be negative), strings by `List Char`, dictionaries
by association lists, and raised exceptions by `Option`/`none`.  Source loops
without a structural bound are given explicit fuel; every fuel baked into a
definition is sufficient for every terminating run of the source, so `none`
coincides with the source raising or diverging.
-/

set_option maxRecDepth 10000

namespace Obf

/-- Exact value of the IEEE-754 double `1.618033988749894848`
(`PRIME_MULTIPLIER` in `_constants.py`) as the fraction PM_NUM / PM_DEN.
`Decimal(float)` in the source converts the float exactly to this rational. -/
def PM_NUM : Nat := 910872158600853

/-- Denominator of the exact prime-multiplier double: 2 ^ 49. -/
def PM_DEN : Nat := 562949953421312

/-- Fuelled helper for `bit_length`; fuel `n` is enough for input `n`. -/
def bit_length_aux : Nat → Nat → Nat
  | 0, _ => 0
  | fuel + 1, n => if n = 0 then 0 else bit_length_aux fuel (n / 2) + 1

/-- Python `int.bit_length` for non-negative input. -/
def bit_length (n : Nat) : Nat := bit_length_aux n n

/-- Newton iteration of CPython's `math.isqrt`, guarded by the strictly
decreasing guess; fuel `n` covers every run. -/
def isqrt_aux (n : Nat) : Nat → Nat → Nat
  | 0, guess => guess
  | fuel + 1, guess =>
    let nxt := (guess + n / guess) / 2
    if nxt < guess then isqrt_aux n fuel nxt else guess

/-- Python `math.isqrt`: the floor square root. -/
def isqrt (n : Nat) : Nat := if n ≤ 1 then n else isqrt_aux n n (n / 2)

/-- Source `trial_division`: divisibility by the odd numbers from 3 up to
`isqrt n` (the Python `range(3, isqrt(n) + 1, 2)`). -/
def trial_division (n : Nat) : Bool :=
  if n ≤ 1 then false
  else if n = 2 then true
  else (List.range' 3 ((isqrt n - 1) / 2) 2).all (fun i => n % i != 0)

/-- Fuelled helper for `factor`; halves `d` while it is even. -/
def factor_aux : Nat → Nat → Nat → Nat × Nat
  | 0, s, d => (s, d)
  | fuel + 1, s, d => if d % 2 = 0 then factor_aux fuel (s + 1) (d / 2) else (s, d)

/-- Source `factor`: `(s, d)` with `n - 1 = 2 ^ s * d`, `d` odd.  Fuel `n`
covers every odd `n ≥ 3` (the only inputs reachable from the source's callers;
on even `n ≥ 2` the source itself would not terminate). -/
def factor (n : Nat) : Nat × Nat := factor_aux n 0 (n - 1)

/-- Binary modular exponentiation, fuelled; fuel above `log2 e` suffices. -/
def pow_mod_aux : Nat → Nat → Nat → Nat → Nat
  | 0, _, _, n => 1 % n
  | fuel + 1, b, e, n =>
    if e = 0 then 1 % n
    else
      let r := pow_mod_aux fuel (b * b % n) (e / 2) n
      if e % 2 = 1 then r * b % n else r

/-- Python's three-argument `pow(b, e, n)` for `n ≥ 1`: `b ^ e % n`. -/
def pow_mod (b e n : Nat) : Nat := pow_mod_aux (e + 1) b e n

/-- Squaring loop of `strong_pseudoprime` (`for _ in range(s - 1)`). -/
def sp_loop (n : Nat) : Nat → Nat → Bool
  | 0, _ => false
  | count + 1, x =>
    let x2 := x * x % n
    if x2 = n - 1 then true
    else if x2 = 1 then false
    else sp_loop n count x2

/-- Source `strong_pseudoprime`: one Miller-Rabin round to the given base. -/
def strong_pseudoprime (n base : Nat) : Bool :=
  if n % 2 = 0 then false
  else if n = 1 then false
  else
    let sd := factor n
    let x := pow_mod base sd.2 n
    if x = 1 || x = n - 1 then true
    else sp_loop n (sd.1 - 1) x

/-- Source `small_strong_pseudoprime`: Miller-Rabin with the fixed witness
bases 2, 13, 23, 1662803. -/
def small_strong_pseudoprime (n : Nat) : Bool :=
  [2, 13, 23, 1662803].all (fun base => strong_pseudoprime n base)

/-- Source `is_prime`: special cases for 2, evens and numbers sharing a factor
with 510510 = 2*3*5*7*11*13*17; exact trial division below 2000000;
the fixed-base Miller-Rabin test above. -/
def is_prime (n : Nat) : Bool :=
  if n = 2 then true
  else if n < 2 ∨ n % 2 = 0 then false
  else if 1 < Nat.gcd n 510510 then
    decide (n = 3 ∨ n = 5 ∨ n = 7 ∨ n = 11 ∨ n = 13 ∨ n = 17)
  else if n < 2000000 then trial_division n
  else small_strong_pseudoprime n

/-- The 30-wheel increment table of `next_prime`: from residue `r` (mod 30),
`gap r` is the distance to the next residue coprime to 30. -/
def gap_table : List Nat :=
  [1, 6, 5, 4, 3, 2, 1, 4, 3, 2, 1, 2, 1, 4, 3, 2, 1, 2, 1, 4, 3, 2, 1, 6, 5, 4, 3, 2, 1, 2]

/-- Lookup into the wheel table (`gap[n % 30]` in the source). -/
def gap (r : Nat) : Nat := gap_table.getD r 0

/-- The `while not is_prime(n)` search loop of `next_prime`, fuelled. -/
def next_prime_loop : Nat → Nat → Option Nat
  | 0, _ => none
  | fuel + 1, n => if is_prime n then some n else next_prime_loop fuel (n + gap (n % 30))

/-- First candidate of the `next_prime` search: `n += 1 + (n & 1)` followed by
the wheel adjustment when the result is divisible by 3 or 5. -/
def next_candidate (n : Nat) : Nat :=
  let n1 := n + 1 + (n &&& 1)
  if n1 % 3 = 0 ∨ n1 % 5 = 0 then n1 + gap (n1 % 30) else n1

/-- Source `next_prime`.  Inputs over 512 bits delegate to gmpy2 when it is
installed and raise MaximumValueError otherwise; both modelled as `none`.
`none` also models exhausting the search fuel (the source loops unboundedly). -/
def next_prime (fuel n : Nat) : Option Nat :=
  if 512 < bit_length n then none
  else if n < 2 then some 2
  else if n < 5 then some ([3, 5, 5].getD (n - 2) 0)
  else next_prime_loop fuel (next_candidate n)

/-- Extended Euclidean algorithm, fuelled; maintains Bezout rows
`(r, s, t)` and `(r', s', t')`.  Fuel above the first remainder suffices
because the remainder strictly decreases. -/
def xgcd_aux : Nat → Nat → Int → Int → Nat → Int → Int → Nat × Int × Int
  | 0, _, _, _, r2, s2, t2 => (r2, s2, t2)
  | fuel + 1, r, s, t, r2, s2, t2 =>
    if r = 0 then (r2, s2, t2)
    else xgcd_aux fuel (r2 % r) (s2 - ((r2 / r : Nat) : Int) * s) (t2 - ((r2 / r : Nat) : Int) * t) r s t

/-- Source `modinv`, i.e. Python `pow(base, -1, m)` for `m ≥ 1`: the unique
inverse in `[0, m)` when `gcd(base, m) = 1` (uniqueness makes any correct
computation return Python's value), `none` for the ValueError otherwise. -/
def modinv (base m : Nat) : Option Nat :=
  let res := xgcd_aux (base + 1) base 1 0 m 0 1
  if res.1 = 1 then some ((res.2.1 % (m : Int) + m) % m).toNat else none

/-- Digit-collection loop of `encode` (`while value > 0`), fuelled.  The digit
characters are appended least-significant first and reversed on exit, as in the
source.  `none` models the ZeroDivisionError on an empty alphabet and
non-termination on a one-symbol alphabet. -/
def encode_aux (alphabet : List Char) : Nat → Nat → List Char → Option (List Char)
  | 0, _, _ => none
  | fuel + 1, value, key =>
    if value = 0 then some key.reverse
    else if alphabet.length = 0 then none
    else
      encode_aux alphabet fuel (value / alphabet.length)
        (key ++ [alphabet.getD (value % alphabet.length) 'A'])

/-- Source `encode`: positional base conversion of a non-negative integer
(the negative-value branch cannot arise for `Nat` input).  Fuel `value + 1`
covers every terminating run. -/
def encode (value : Nat) (alphabet : List Char) : Option (List Char) :=
  if h : value < alphabet.length then some [alphabet.get ⟨value, h⟩]
  else encode_aux alphabet (value + 1) value []

/-- Source `decode`: positional base conversion of a string, most significant
symbol first; `none` models the UnknownKeyError for symbols outside the
alphabet.  `alphabet.index` is the first index, `List.indexOf`. -/
def decode (value : List Char) (alphabet : List Char) : Option Nat :=
  if value.all (fun c => alphabet.contains c) then
    if value.length = 1 then some (alphabet.indexOf (value.headD 'A'))
    else
      some ((value.reverse.enum.map
        (fun p => alphabet.indexOf p.2 * alphabet.length ^ p.1)).sum)
  else none

/-- Source `generate_prime`: seeds `next_prime` with
`int((B ^ L - 1) * PRIME_MULTIPLIER)`.  The source's `Decimal` product rounds
to 28 significant digits; it is modelled as the exact rational product, with
which it agrees whenever the integer part has fewer than 28 digits. -/
def generate_prime (alphabet : List Char) (key_length : Nat)
    (pm_num pm_den fuel : Nat) : Option Nat :=
  next_prime fuel ((alphabet.length ^ key_length - 1) * pm_num / pm_den)

/-- State of an `Obfuskey` instance: the alphabet, the key length, the cached
multiplier (`none` before lazy derivation) and the prime-multiplier seed as an
exact rational.  The constructor checks (duplicate-free alphabet, odd supplied
multiplier) appear as hypotheses of the theorems below. -/
structure Obfuskey where
  alphabet : List Char
  key_length : Nat
  multiplier : Option Int
  pm_num : Nat
  pm_den : Nat
  deriving Repr, DecidableEq

/-- The modulus `B ^ L = maximum_value + 1` of the key transform. -/
def Obfuskey.modulus (k : Obfuskey) : Nat := k.alphabet.length ^ k.key_length

/-- Source `maximum_value` property: `len(alphabet) ** key_length - 1` (an
`int`; it is -1 for an empty alphabet with a positive key length). -/
def Obfuskey.maximum_value (k : Obfuskey) : Int := (k.modulus : Int) - 1

/-- Python `str.rjust`: left-pad to the given width (never truncates). -/
def rjust (s : List Char) (width : Nat) (fill : Char) : List Char :=
  List.replicate (width - s.length) fill ++ s

/-- The all-first-symbol key `"".rjust(key_length, alphabet[0])`. -/
def Obfuskey.zero_key (k : Obfuskey) : List Char :=
  rjust [] k.key_length (k.alphabet.headD 'A')

/-- Multiplier materialization: the cached value, or the lazily generated
prime (`Obfuskey.__generate_multiplier` in the source). -/
def Obfuskey.the_multiplier (k : Obfuskey) (fuel : Nat) : Option Int :=
  match k.multiplier with
  | some m => some m
  | none =>
    (generate_prime k.alphabet k.key_length k.pm_num k.pm_den fuel).map (fun p => (p : Int))

/-- Source `Obfuskey.get_key` for a non-negative value (the negative-value
branch cannot arise for `Nat` input).  `none` models MaximumValueError, the
IndexError of `alphabet[0]` on an empty alphabet, and a failing multiplier
derivation. -/
def Obfuskey.get_key (k : Obfuskey) (fuel : Nat) (value : Nat) : Option (List Char) :=
  if (value : Int) > k.maximum_value then none
  else if value = 0 then
    if k.alphabet.isEmpty then none else some k.zero_key
  else
    (k.the_multiplier fuel).bind fun m =>
      (encode (((value : Int) * m) % (k.modulus : Int)).toNat k.alphabet).map
        fun s => rjust s k.key_length (k.alphabet.headD 'A')

/-- Source `Obfuskey.get_value`.  `none` models UnknownKeyError,
KeyLengthError, the `alphabet[0]` IndexError of the zero-key comparison on an
empty alphabet, a failing multiplier derivation and the non-invertibility
ValueError of `modinv`.  Python passes the multiplier (possibly negative) to
`pow(-, -1, modulus)`; reducing it mod the modulus first returns the same
unique inverse. -/
def Obfuskey.get_value (k : Obfuskey) (fuel : Nat) (key : List Char) : Option Nat :=
  if ¬ key.all (fun c => k.alphabet.contains c) then none
  else if key.length ≠ k.key_length then none
  else if k.alphabet.isEmpty then none
  else if key = k.zero_key then some 0
  else
    (k.the_multiplier fuel).bind fun m =>
      (decode key k.alphabet).bind fun d =>
        (modinv ((m % (k.modulus : Int)).toNat) k.modulus).map
          fun inv => d * inv % k.modulus

/-- Shift accumulation of `ObfusbitSchema._calculate_field_info`: walk the
(already reversed) field list, assigning the running offset as each field's
shift and adding the field's bits to the offset. -/
def cfi_aux : List (String × Nat) → Nat → List (String × Nat × Nat)
  | [], _ => []
  | f :: rest, shift => (f.1, f.2, shift) :: cfi_aux rest (shift + f.2)

/-- Compiled per-field {bits, shift} table (the source walks
`reversed(raw_schema)` building a dict). -/
def field_info (s : List (String × Nat)) : List (String × Nat × Nat) :=
  cfi_aux s.reverse 0

/-- Source `ObfusbitSchema.get_field_info`: dict lookup; on validated schemas
names are unique, so the first match agrees with the dict. -/
def get_field_info (s : List (String × Nat)) (name : String) : Option (Nat × Nat) :=
  (field_info s).lookup name

/-- Success condition of `ObfusbitSchema._validate_schema` on well-typed
input: a non-empty list, positive bit widths, distinct names. -/
def validate_schema (s : List (String × Nat)) : Bool :=
  !s.isEmpty && s.all (fun f => 0 < f.2) && decide (s.map Prod.fst).Nodup

/-- Source `total_bits`: the sum of all field widths. -/
def total_bits (s : List (String × Nat)) : Nat := (s.map (fun f => f.2)).sum

/-- Source `max_bits`: `(1 << total_bits) - 1`. -/
def max_bits (s : List (String × Nat)) : Nat := (1 <<< total_bits s) - 1

/-- Source `ObfusbitSchema.validate_values`: missing fields, then unexpected
fields, then per-field width check; `none` models the raised ValueError /
BitOverflowError.  The values dict is an association list. -/
def validate_values (s : List (String × Nat)) (values : List (String × Nat)) : Option Unit :=
  if (s.map Prod.fst).any (fun n => ¬ (values.map Prod.fst).contains n) then none
  else if (values.map Prod.fst).any (fun n => ¬ (s.map Prod.fst).contains n) then none
  else if values.all (fun p =>
      match get_field_info s p.1 with
      | some info => p.2 < 1 <<< info.1
      | none => false) then some () else none

/-- State of an `Obfusbit` instance: the (validated) schema and the optional
attached key transform. -/
structure Obfusbit where
  schema : List (String × Nat)
  obfuskey : Option Obfuskey
  deriving Repr, DecidableEq

/-- Source `Obfusbit.__init__` from a raw schema list: schema validation, then
the capacity invariant against the attached Obfuskey.  `none` models the
raised SchemaValidationError / MaximumValueError; no instance exists on
failure. -/
def obfusbit_init (s : List (String × Nat)) (okey : Option Obfuskey) : Option Obfusbit :=
  if ¬ validate_schema s then none
  else
    match okey with
    | some k => if (max_bits s : Int) > k.maximum_value then none else some ⟨s, some k⟩
    | none => some ⟨s, none⟩

/-- Field loop of `Obfusbit.pack`: for each schema item, look up its compiled
info, read the value from the input dict (`values.get`), check only
missingness and the per-field width, and or the shifted value in. -/
def pack_aux (s : List (String × Nat)) (values : List (String × Nat)) :
    List (String × Nat) → Nat → Option Nat
  | [], acc => some acc
  | item :: rest, acc =>
    match get_field_info s item.1 with
    | none => none
    | some info =>
      match values.lookup item.1 with
      | none => none
      | some v =>
        if v < 1 <<< info.1 then pack_aux s values rest (acc ||| (v <<< info.2))
        else none

/-- Source `Obfusbit.pack` with `obfuscate=False`.  Note it never calls
`validate_values`: keys of `values` outside the schema are never read. -/
def pack (b : Obfusbit) (values : List (String × Nat)) : Option Nat :=
  pack_aux b.schema values b.schema 0

/-- Field loop of `Obfusbit.unpack`. -/
def unpack_aux (s : List (String × Nat)) (packed : Nat) :
    List (String × Nat) → Option (List (String × Nat))
  | [] => some []
  | item :: rest =>
    match get_field_info s item.1 with
    | none => none
    | some info =>
      match unpack_aux s packed rest with
      | none => none
      | some tail => some ((item.1, (packed >>> info.2) &&& ((1 <<< info.1) - 1)) :: tail)

/-- Source `Obfusbit.unpack` with `obfuscated=False`: no range check on the
packed integer; each field is `(packed >> shift) & ((1 << bits) - 1)`. -/
def unpack (b : Obfusbit) (packed : Nat) : Option (List (String × Nat)) :=
  unpack_aux b.schema packed b.schema

/-! ### Base codec lemmas -/

/-- The character the source writes for digit `d`: `alphabet[d]`. -/
def digit_char (A : List Char) (d : Nat) : Char := A.getD d 'A'

/-- Canonical output of `encode`: the base-`|A|` digits of `x`, most
significant symbol first, with `0` encoded as the single first symbol. -/
def enc_str (A : List Char) (x : Nat) : List Char :=
  if x = 0 then [A.headD 'A'] else ((Nat.digits A.length x).map (digit_char A)).reverse

theorem headD_eq_get (A : List Char) (h : 0 < A.length) : A.headD 'A' = A.get ⟨0, h⟩ := by
  cases A with
  | nil => simp at h
  | cons a l => rfl

theorem head?_getD_eq_get (A : List Char) (h : 0 < A.length) :
    A.head?.getD 'A' = A.get ⟨0, h⟩ := by
  cases A with
  | nil => simp at h
  | cons a l => rfl

theorem encode_aux_eq (A : List Char) (h2 : 2 ≤ A.length) :
    ∀ (fuel v : Nat) (key : List Char), v < fuel →
      encode_aux A fuel v key =
        some ((key ++ (Nat.digits A.length v).map (digit_char A)).reverse) := by
  intro fuel
  induction fuel with
  | zero => intro v key h; omega
  | succ f ih =>
    intro v key h
    by_cases hv : v = 0
    · subst hv; simp [encode_aux]
    · have hlen : ¬ A.length = 0 := by omega
      have hdig : Nat.digits A.length v =
          v % A.length :: Nat.digits A.length (v / A.length) :=
        Nat.digits_def' (by omega) (Nat.pos_of_ne_zero hv)
      have hdiv : v / A.length < f := by
        have := Nat.div_lt_self (Nat.pos_of_ne_zero hv) (show 1 < A.length by omega)
        omega
      simp only [encode_aux, if_neg hv, if_neg hlen]
      rw [ih (v / A.length) _ hdiv, hdig]
      simp [digit_char, List.append_assoc]

theorem encode_eq (A : List Char) (h2 : 2 ≤ A.length) (x : Nat) :
    encode x A = some (enc_str A x) := by
  by_cases hx : x < A.length
  · rw [encode, dif_pos hx]
    by_cases h0 : x = 0
    · subst h0
      rw [enc_str, if_pos rfl, headD_eq_get A (by omega)]
    · have hdig : Nat.digits A.length x = [x] := by
        rw [Nat.digits_def' (show 1 < A.length by omega) (Nat.pos_of_ne_zero h0),
          Nat.mod_eq_of_lt hx, Nat.div_eq_of_lt hx]
        simp
      rw [enc_str, if_neg h0, hdig, List.map_cons, List.map_nil, List.reverse_singleton,
        digit_char, List.getD_eq_get A 'A' hx]
  · rw [encode, dif_neg hx]
    rw [encode_aux_eq A h2 (x + 1) x [] (by omega)]
    have h0 : ¬ x = 0 := by omega
    simp [enc_str, h0]

theorem sum_enumFrom_eq_ofDigits (A : List Char) (b : Nat) :
    ∀ (l : List Char) (n : Nat),
      ((l.enumFrom n).map (fun p => A.indexOf p.2 * b ^ p.1)).sum =
        b ^ n * Nat.ofDigits b (l.map (fun c => A.indexOf c)) := by
  intro l
  induction l with
  | nil => intro n; simp [Nat.ofDigits_nil]
  | cons c cs ih =>
    intro n
    simp only [List.enumFrom_cons, List.map_cons, List.sum_cons, ih (n + 1),
      Nat.ofDigits_cons]
    ring

theorem decode_eq (A s : List Char) (hall : ∀ c ∈ s, c ∈ A) :
    decode s A = some (Nat.ofDigits A.length (s.reverse.map (fun c => A.indexOf c))) := by
  have hc : s.all (fun c => A.contains c) = true := by
    rw [List.all_eq_true]
    intro c hcs
    exact List.elem_iff.mpr (hall c hcs)
  rw [decode, if_pos hc]
  by_cases h1 : s.length = 1
  · obtain ⟨c, rfl⟩ := List.length_eq_one.mp h1
    simp [Nat.ofDigits_cons, Nat.ofDigits_nil]
  · rw [if_neg h1]
    congr 1
    have := sum_enumFrom_eq_ofDigits A A.length s.reverse 0
    simpa [List.enum] using this

theorem enc_str_mem (A : List Char) (h2 : 2 ≤ A.length) (x : Nat) :
    ∀ c ∈ enc_str A x, c ∈ A := by
  intro c hc
  rw [enc_str] at hc
  by_cases h0 : x = 0
  · rw [if_pos h0, List.mem_singleton] at hc
    subst hc
    rw [headD_eq_get A (by omega)]
    exact List.get_mem ..
  · simp only [if_neg h0, List.mem_reverse, List.mem_map] at hc
    obtain ⟨d, hd, rfl⟩ := hc
    have hdlt : d < A.length := Nat.digits_lt_base (by omega) hd
    rw [digit_char, List.getD_eq_get A 'A' hdlt]
    exact List.get_mem ..

theorem enc_str_length_le (A : List Char) (h2 : 2 ≤ A.length) (x L : Nat)
    (hL : 1 ≤ L) (hx : x < A.length ^ L) : (enc_str A x).length ≤ L := by
  rw [enc_str]
  by_cases h0 : x = 0
  · simp [h0]; omega
  · simp only [if_neg h0, List.length_reverse, List.length_map]
    have hlog : Nat.log A.length x < L := (Nat.lt_pow_iff_log_lt (by omega) h0).mp hx
    rw [Nat.digits_len A.length x (by omega) h0]
    omega

theorem indexOf_headD (A : List Char) (h : 0 < A.length) : A.indexOf (A.headD 'A') = 0 := by
  cases A with
  | nil => simp at h
  | cons a l => exact List.indexOf_cons_self a l

theorem ofDigits_replicate_zero (b : Nat) : ∀ n, Nat.ofDigits b (List.replicate n 0) = 0 := by
  intro n
  induction n with
  | zero => simp [Nat.ofDigits_nil]
  | succ k ih => simp [List.replicate_succ, Nat.ofDigits_cons, ih]

theorem indexOf_digit_char (A : List Char) (hnd : A.Nodup) (d : Nat) (hd : d < A.length) :
    A.indexOf (digit_char A d) = d := by
  rw [digit_char, List.getD_eq_get A 'A' hd]
  exact List.get_indexOf hnd ⟨d, hd⟩

theorem enc_str_decodes (A : List Char) (hnd : A.Nodup) (h2 : 2 ≤ A.length) (x : Nat) :
    Nat.ofDigits A.length ((enc_str A x).reverse.map (fun c => A.indexOf c)) = x := by
  rw [enc_str]
  by_cases h0 : x = 0
  · rw [if_pos h0, List.reverse_singleton, List.map_cons, List.map_nil,
      Nat.ofDigits_cons, Nat.ofDigits_nil, indexOf_headD A (by omega), h0]
    simp
  · simp only [if_neg h0, List.reverse_reverse, List.map_map]
    have hpt : (Nat.digits A.length x).map ((fun c => A.indexOf c) ∘ digit_char A) =
        Nat.digits A.length x := by
      have := List.map_congr_left (l := Nat.digits A.length x)
        (f := (fun c => A.indexOf c) ∘ digit_char A) (g := id) ?_
      · simpa using this
      · intro d hd
        simp [indexOf_digit_char A hnd d (Nat.digits_lt_base (by omega) hd)]
    rw [hpt, Nat.ofDigits_digits]

/-- C3 counterexample: the empty alphabet is duplicate-free, yet
`decode(encode(1, ""), "")` raises (ZeroDivisionError) instead of returning 1;
a one-symbol alphabet similarly diverges for `v ≥ 1`. -/
theorem c3_empty_alphabet_counterexample :
    ([] : List Char).Nodup ∧ (encode 1 []).bind (fun s => decode s []) ≠ some 1 :=
  ⟨List.nodup_nil, by decide⟩

/-- C3 (amended): for every duplicate-free alphabet with at least two symbols
and every value `v ≥ 0`, `decode(encode(v, A), A) = v`. -/
theorem decode_encode (A : List Char) (v : Nat) (hnd : A.Nodup) (h2 : 2 ≤ A.length) :
    (encode v A).bind (fun s => decode s A) = some v := by
  rw [encode_eq A h2 v, Option.some_bind, decode_eq A _ (enc_str_mem A h2 v),
    enc_str_decodes A hnd h2 v]

/-- Witness for `decode_encode` at the alphabet "01" and value 5. -/
theorem decode_encode_witness :
    (encode 5 "01".toList).bind (fun s => decode s "01".toList) = some 5 :=
  decode_encode "01".toList 5 (by decide) (by decide)

/-! ### Modular inverse -/

theorem xgcd_aux_spec (b m : Nat) :
    ∀ (fuel r : Nat) (s t : Int) (r2 : Nat) (s2 t2 : Int),
      r ≤ fuel →
      s * b + t * m = (r : Int) → s2 * b + t2 * m = (r2 : Int) →
      (xgcd_aux fuel r s t r2 s2 t2).1 = Nat.gcd r r2 ∧
        (xgcd_aux fuel r s t r2 s2 t2).2.1 * b + (xgcd_aux fuel r s t r2 s2 t2).2.2 * m =
          ((xgcd_aux fuel r s t r2 s2 t2).1 : Int) := by
  intro fuel
  induction fuel with
  | zero =>
    intro r s t r2 s2 t2 hr h1 h2
    have hr0 : r = 0 := by omega
    subst hr0
    simpa [xgcd_aux] using h2
  | succ f ih =>
    intro r s t r2 s2 t2 hr h1 h2
    by_cases h0 : r = 0
    · subst h0
      simpa [xgcd_aux] using h2
    · have hmodlt : r2 % r < r := Nat.mod_lt r2 (Nat.pos_of_ne_zero h0)
      have hdm := Nat.div_add_mod r2 r
      have hmodcast : ((r2 % r : Nat) : Int) = (r2 : Int) - ((r2 / r : Nat) : Int) * r := by
        push_cast
        push_cast at hdm
        linarith
      have hrec := ih (r2 % r) (s2 - ((r2 / r : Nat) : Int) * s) (t2 - ((r2 / r : Nat) : Int) * t)
        r s t (by omega) (by rw [hmodcast]; linear_combination h2 - ((r2 / r : Nat) : Int) * h1) h1
      simp only [xgcd_aux, if_neg h0]
      refine ⟨?_, hrec.2⟩
      rw [hrec.1, ← Nat.gcd_rec]

theorem modinv_spec (b m : Nat) (hm : 1 ≤ m) (h : Nat.gcd b m = 1) :
    ∃ v, modinv b m = some v ∧ v < m ∧ b * v % m = 1 % m := by
  obtain ⟨hg, hbez⟩ := xgcd_aux_spec b m (b + 1) b 1 0 m 0 1 (by omega)
    (by ring) (by ring)
  have h1 : (xgcd_aux (b + 1) b 1 0 m 0 1).1 = 1 := by rw [hg, h]
  have hmod : modinv b m =
      some (((xgcd_aux (b + 1) b 1 0 m 0 1).2.1 % (m : Int) + m) % m).toNat := by
    show (if (xgcd_aux (b + 1) b 1 0 m 0 1).1 = 1 then
        some (((xgcd_aux (b + 1) b 1 0 m 0 1).2.1 % (m : Int) + m) % m).toNat
      else none) = _
    rw [if_pos h1]
  set a : Int := (xgcd_aux (b + 1) b 1 0 m 0 1).2.1 with ha
  set c : Int := (xgcd_aux (b + 1) b 1 0 m 0 1).2.2 with hc
  have hbez1 : a * b + c * m = 1 := by
    rw [h1] at hbez
    exact_mod_cast hbez
  have hmpos : (0 : Int) < m := by exact_mod_cast hm
  set w : Int := (a % (m : Int) + m) % (m : Int) with hw
  have h0le : 0 ≤ w := Int.emod_nonneg _ (by omega)
  have hlt : w < m := Int.emod_lt_of_pos _ hmpos
  have hwa : w = a % m := by
    rw [hw, show a % (m : Int) + m = a % m + m * 1 by ring, Int.add_mul_emod_self_left,
      Int.emod_emod_of_dvd a dvd_rfl]
  refine ⟨w.toNat, hmod, by omega, ?_⟩
  have hint : (b : Int) * w % m = 1 % m := by
    rw [hwa, Int.mul_emod, Int.emod_emod_of_dvd a dvd_rfl, ← Int.mul_emod,
      show (b : Int) * a = 1 + m * (-c) by linarith, Int.add_mul_emod_self_left]
  have hcastw : (w.toNat : Int) = w := Int.toNat_of_nonneg h0le
  have : ((b * w.toNat % m : Nat) : Int) = ((1 % m : Nat) : Int) := by
    push_cast
    rw [hcastw]
    exact hint
  exact_mod_cast this

/-! ### Key transform round trip -/

theorem zero_key_eq (k : Obfuskey) :
    k.zero_key = List.replicate k.key_length (k.alphabet.headD 'A') := by
  simp [Obfuskey.zero_key, rjust]

theorem decode_rjust (A s : List Char) (h1 : 0 < A.length) (hall : ∀ c ∈ s, c ∈ A) (L : Nat) :
    decode (rjust s L (A.headD 'A')) A =
      some (Nat.ofDigits A.length (s.reverse.map (fun c => A.indexOf c))) := by
  have hall2 : ∀ c ∈ rjust s L (A.headD 'A'), c ∈ A := by
    intro c hc
    rw [rjust, List.mem_append] at hc
    rcases hc with hmem | hmem
    · rw [List.eq_of_mem_replicate hmem, headD_eq_get A h1]
      exact List.get_mem ..
    · exact hall c hmem
  rw [decode_eq A _ hall2, rjust, List.reverse_append, List.reverse_replicate,
    List.map_append, List.map_replicate, indexOf_headD A h1, Nat.ofDigits_append,
    ofDigits_replicate_zero]
  simp

theorem rjust_length (s : List Char) (L : Nat) (c : Char) (h : s.length ≤ L) :
    (rjust s L c).length = L := by
  simp [rjust]
  omega

theorem mk_alphabet (A : List Char) (L : Nat) (mm : Option Int) (pn pd : Nat) :
    (Obfuskey.mk A L mm pn pd).alphabet = A := rfl

theorem mk_key_length (A : List Char) (L : Nat) (mm : Option Int) (pn pd : Nat) :
    (Obfuskey.mk A L mm pn pd).key_length = L := rfl

theorem mk_modulus (A : List Char) (L : Nat) (mm : Option Int) (pn pd : Nat) :
    (Obfuskey.mk A L mm pn pd).modulus = A.length ^ L := rfl

theorem mk_maximum_value (A : List Char) (L : Nat) (mm : Option Int) (pn pd : Nat) :
    (Obfuskey.mk A L mm pn pd).maximum_value = ((A.length ^ L : Nat) : Int) - 1 := rfl

theorem mk_zero_key (A : List Char) (L : Nat) (mm : Option Int) (pn pd : Nat) :
    (Obfuskey.mk A L mm pn pd).zero_key = List.replicate L (A.headD 'A') := by
  simp [Obfuskey.zero_key, rjust]

theorem mk_the_multiplier (A : List Char) (L : Nat) (m : Int) (pn pd fuel : Nat) :
    (Obfuskey.mk A L (some m) pn pd).the_multiplier fuel = some m := rfl

theorem decode_replicate_headD (A : List Char) (h1 : 0 < A.length) (L : Nat) :
    decode (List.replicate L (A.headD 'A')) A = some 0 := by
  have h := decode_rjust A [] h1 (by intro c hc; simp at hc) L
  simpa [rjust, Nat.ofDigits_nil] using h

/-- C1 (amended): the Obfuskey round trip `get_value(get_key(v)) = v` holds
for every duplicate-free non-empty alphabet, every key length, every value
`v` in `[0, |A|^L - 1]` and every caller-supplied odd multiplier coprime to
the modulus `|A|^L`.  (The auto-derived multiplier case fails when
`|A|^L = 2`, see the counterexample.) -/
theorem get_value_get_key
    (A : List Char) (L : Nat) (m : Int) (pn pd fuel : Nat) (v : Nat)
    (hnd : A.Nodup) (hA : A ≠ []) (hodd : m % 2 = 1)
    (hcop : Int.gcd m ((A.length ^ L : Nat) : Int) = 1)
    (hv : v < A.length ^ L) :
    ((Obfuskey.mk A L (some m) pn pd).get_key fuel v).bind
      (fun s => (Obfuskey.mk A L (some m) pn pd).get_value fuel s) = some v := by
  have hlenpos : 0 < A.length := List.length_pos.mpr hA
  have hNpos : 0 < A.length ^ L := by positivity
  have hviN : (v : Int) < ((A.length ^ L : Nat) : Int) := by exact_mod_cast hv
  have hrange : ¬ ((v : Int) > (Obfuskey.mk A L (some m) pn pd).maximum_value) := by
    rw [mk_maximum_value]
    omega
  have hempty : ¬ (A.isEmpty = true) := by
    simpa [List.isEmpty_iff] using hA
  by_cases hv0 : v = 0
  · subst hv0
    have hzk : (Obfuskey.mk A L (some m) pn pd).get_key fuel 0 =
        some (List.replicate L (A.headD 'A')) := by
      unfold Obfuskey.get_key
      rw [mk_zero_key, mk_alphabet]
      rw [if_neg hrange, if_pos rfl, if_neg hempty]
    rw [hzk, Option.some_bind]
    unfold Obfuskey.get_value
    rw [mk_alphabet, mk_key_length, mk_zero_key]
    have hall : (List.replicate L (A.headD 'A')).all (fun c => A.contains c) = true := by
      rw [List.all_eq_true]
      intro c hc
      rw [List.eq_of_mem_replicate hc, headD_eq_get A hlenpos]
      exact List.elem_iff.mpr (List.get_mem ..)
    rw [if_neg (not_not_intro hall), if_neg (not_not_intro (by simp)), if_neg hempty,
      if_pos rfl]
  · have hlen2 : 2 ≤ A.length := by
      by_contra hcon
      have hle : A.length ^ L ≤ 1 := by
        calc A.length ^ L ≤ 1 ^ L := Nat.pow_le_pow_left (by omega) L
        _ = 1 := one_pow L
      omega
    have hL1 : 1 ≤ L := by
      rcases Nat.eq_zero_or_pos L with hL | hL
      · rw [hL, pow_zero] at hv
        omega
      · exact hL
    have hN2 : 1 < A.length ^ L := by omega
    set mu := (m % ((A.length ^ L : Nat) : Int)).toNat with hmu
    have hNposI : (0 : Int) < ((A.length ^ L : Nat) : Int) := by exact_mod_cast hNpos
    have hmN : m % ((A.length ^ L : Nat) : Int) = (mu : Int) :=
      (Int.toNat_of_nonneg (Int.emod_nonneg m (by omega))).symm
    have hmasked : (((v : Int) * m) % ((A.length ^ L : Nat) : Int)).toNat
        = v * mu % A.length ^ L := by
      have hstep : ((v : Int) * m) % ((A.length ^ L : Nat) : Int)
          = ((v * mu % A.length ^ L : Nat) : Int) := by
        calc ((v : Int) * m) % ((A.length ^ L : Nat) : Int)
            = ((v : Int) % ((A.length ^ L : Nat) : Int) *
                (m % ((A.length ^ L : Nat) : Int))) % ((A.length ^ L : Nat) : Int) :=
              Int.mul_emod ..
          _ = ((v : Int) * (mu : Int)) % ((A.length ^ L : Nat) : Int) := by
              rw [Int.emod_eq_of_lt (by omega) hviN, hmN]
          _ = ((v * mu : Nat) : Int) % ((A.length ^ L : Nat) : Int) := by push_cast; ring_nf
          _ = ((v * mu % A.length ^ L : Nat) : Int) := (Int.natCast_mod ..).symm
      rw [hstep, Int.toNat_natCast]
    have hcop2 : Nat.gcd mu (A.length ^ L) = 1 := by
      obtain ⟨a, c, hac⟩ := Int.gcd_eq_one_iff_coprime.mp hcop
      have hiso2 : IsCoprime ((mu : Nat) : Int) ((A.length ^ L : Nat) : Int) := by
        rw [← hmN]
        refine ⟨a, c + a * (m / ((A.length ^ L : Nat) : Int)), ?_⟩
        have hdm := Int.ediv_add_emod m ((A.length ^ L : Nat) : Int)
        linear_combination hac + a * hdm
      rw [← Int.gcd_natCast_natCast, Int.gcd_eq_one_iff_coprime]
      exact hiso2
    obtain ⟨inv, hinv, hinvlt, hinveq⟩ := modinv_spec mu (A.length ^ L) (by omega) hcop2
    set x := v * mu % A.length ^ L with hx
    have hxlt : x < A.length ^ L := Nat.mod_lt _ hNpos
    have hx0 : x ≠ 0 := by
      intro hzero
      have hdvd : A.length ^ L ∣ v * mu := Nat.dvd_of_mod_eq_zero (by rw [← hx, hzero])
      have hdv : A.length ^ L ∣ v :=
        Nat.Coprime.dvd_of_dvd_mul_right (Nat.Coprime.symm hcop2) hdvd
      have := Nat.le_of_dvd (Nat.pos_of_ne_zero hv0) hdv
      omega
    have hsmem : ∀ c ∈ enc_str A x, c ∈ A := enc_str_mem A hlen2 x
    have hkeyeq : (Obfuskey.mk A L (some m) pn pd).get_key fuel v =
        some (rjust (enc_str A x) L (A.headD 'A')) := by
      unfold Obfuskey.get_key
      rw [if_neg hrange, if_neg hv0, mk_the_multiplier, Option.some_bind, mk_modulus,
        mk_alphabet, mk_key_length, hmasked, encode_eq A hlen2, Option.map_some']
    rw [hkeyeq, Option.some_bind]
    have hallkey : (rjust (enc_str A x) L (A.headD 'A')).all (fun c => A.contains c) = true := by
      rw [List.all_eq_true]
      intro c hc
      rw [rjust, List.mem_append] at hc
      rcases hc with hmem | hmem
      · rw [List.eq_of_mem_replicate hmem, headD_eq_get A hlenpos]
        exact List.elem_iff.mpr (List.get_mem ..)
      · exact List.elem_iff.mpr (hsmem c hmem)
    have hslen : (enc_str A x).length ≤ L := enc_str_length_le A hlen2 x L hL1 hxlt
    have hkeylen : (rjust (enc_str A x) L (A.headD 'A')).length = L :=
      rjust_length _ _ _ hslen
    have hdk : decode (rjust (enc_str A x) L (A.headD 'A')) A = some x := by
      rw [decode_rjust A _ hlenpos hsmem L, enc_str_decodes A hnd hlen2 x]
    have hkeyne : rjust (enc_str A x) L (A.headD 'A') ≠ List.replicate L (A.headD 'A') := by
      intro heq
      rw [heq, decode_replicate_headD A hlenpos L] at hdk
      exact hx0 (by simpa using hdk.symm)
    unfold Obfuskey.get_value
    rw [mk_alphabet, mk_key_length, mk_zero_key, mk_the_multiplier, mk_modulus]
    rw [if_neg (not_not_intro hallkey), if_neg (not_not_intro hkeylen), if_neg hempty,
      if_neg hkeyne, Option.some_bind, hdk, Option.some_bind, ← hmu, hinv, Option.map_some']
    congr 1
    calc x * inv % A.length ^ L
        = v * mu * inv % A.length ^ L := by rw [hx, Nat.mod_mul_mod]
      _ = v * (mu * inv) % A.length ^ L := by rw [Nat.mul_assoc]
      _ = v % (A.length ^ L) * (mu * inv % (A.length ^ L)) % A.length ^ L := Nat.mul_mod ..
      _ = v % (A.length ^ L) * (1 % (A.length ^ L)) % A.length ^ L := by rw [hinveq]
      _ = v := by rw [Nat.mod_eq_of_lt hv, Nat.mod_eq_of_lt hN2, Nat.mul_one,
          Nat.mod_eq_of_lt hv]

/-- Witness for `get_value_get_key`: alphabet "01", key length 3,
multiplier 5 (odd, coprime to 8), value 6. -/
theorem get_value_get_key_witness :
    ((Obfuskey.mk "01".toList 3 (some 5) PM_NUM PM_DEN).get_key 10 6).bind
      (fun s => (Obfuskey.mk "01".toList 3 (some 5) PM_NUM PM_DEN).get_value 10 s) = some 6 :=
  get_value_get_key "01".toList 3 5 PM_NUM PM_DEN 10 6 (by decide) (by decide) (by decide)
    (by decide) (by decide)

/-- C1 counterexample: the round trip fails with the auto-derived multiplier
when `|A|^L = 2`: for alphabet "01" and key length 1 the lazily generated
multiplier is 2 (not coprime to the modulus 2), `get_key(1) = "0"` collides
with the zero key, and `get_value(get_key(1)) = 0 ≠ 1`. -/
theorem get_value_get_key_counterexample :
    "01".toList.Nodup ∧
      ((Obfuskey.mk "01".toList 1 none PM_NUM PM_DEN).get_key 100 1).bind
        (fun s => (Obfuskey.mk "01".toList 1 none PM_NUM PM_DEN).get_value 100 s) = some 0 ∧
      ((Obfuskey.mk "01".toList 1 none PM_NUM PM_DEN).get_key 100 1).bind
        (fun s => (Obfuskey.mk "01".toList 1 none PM_NUM PM_DEN).get_value 100 s) ≠ some 1 :=
  ⟨by decide, by decide, by decide⟩

/-- C9: the known vector.  For alphabet "0123456789ABCDEF" and key length 6
with the auto-derived multiplier (27146107), `get_key(12345) = "A16A63"` and
`get_value("A16A63") = 12345`. -/
theorem known_vector_hex :
    (Obfuskey.mk "0123456789ABCDEF".toList 6 none PM_NUM PM_DEN).get_key 100 12345 =
        some "A16A63".toList ∧
      (Obfuskey.mk "0123456789ABCDEF".toList 6 none PM_NUM PM_DEN).get_value 100
        "A16A63".toList = some 12345 :=
  ⟨by decide, by decide⟩

/-! ### Prime search -/

theorem gap_pos : ∀ r < 30, 1 ≤ gap r := by decide

theorem gap_le_six : ∀ r < 30, gap r ≤ 6 := by decide

/-- Between a wheel position and its next candidate, every integer is
divisible by 2, 3 or 5 (checked over all residues mod 30). -/
theorem gap_skip : ∀ r < 30, ∀ d < 6, 1 ≤ d → d < gap r →
    2 ∣ (r + d) % 30 ∨ 3 ∣ (r + d) % 30 ∨ 5 ∣ (r + d) % 30 := by decide

/-- A passer of `is_prime` other than 2 is odd. -/
theorem is_prime_odd (q : Nat) (hq : is_prime q = true) (h2 : q ≠ 2) : q % 2 = 1 := by
  rw [is_prime, if_neg h2] at hq
  by_cases h : q < 2 ∨ q % 2 = 0
  · rw [if_pos h] at hq
    simp at hq
  · omega

/-- A number at least 6 with a factor of 2, 3 or 5 fails `is_prime`. -/
theorem is_prime_eq_false_of_divisor (m : Nat) (h6 : 6 ≤ m)
    (hdvd : 2 ∣ m ∨ 3 ∣ m ∨ 5 ∣ m) : is_prime m = false := by
  by_cases he : m % 2 = 0
  · rw [is_prime, if_neg (by omega), if_pos (by omega)]
  · have h35 : 3 ∣ m ∨ 5 ∣ m := by
      rcases hdvd with h | h | h
      · omega
      · exact Or.inl h
      · exact Or.inr h
    have hg : 1 < Nat.gcd m 510510 := by
      rcases h35 with h | h
      · have hdg : 3 ∣ Nat.gcd m 510510 := Nat.dvd_gcd h (by norm_num)
        have := Nat.le_of_dvd (Nat.gcd_pos_of_pos_right m (by norm_num)) hdg
        omega
      · have hdg : 5 ∣ Nat.gcd m 510510 := Nat.dvd_gcd h (by norm_num)
        have := Nat.le_of_dvd (Nat.gcd_pos_of_pos_right m (by norm_num)) hdg
        omega
    rw [is_prime, if_neg (by omega), if_neg (by omega), if_pos hg]
    rw [decide_eq_false_iff_not]
    rcases h35 with h | h <;> omega

/-- Strictly between a candidate and the next wheel candidate, `is_prime`
rejects everything. -/
theorem between_candidates_false (c mm : Nat) (h7 : 7 ≤ c) (h1 : c < mm)
    (h2 : mm < c + gap (c % 30)) : is_prime mm = false := by
  have hr : c % 30 < 30 := Nat.mod_lt c (by omega)
  have hle := gap_le_six (c % 30) hr
  have hd6 : mm - c < 6 := by omega
  have hres := gap_skip (c % 30) hr (mm - c) hd6 (by omega) (by omega)
  have hmod : (c % 30 + (mm - c)) % 30 = mm % 30 := by
    conv_rhs => rw [show mm = c + (mm - c) by omega]
    rw [Nat.add_mod c (mm - c) 30, Nat.mod_eq_of_lt (show mm - c < 30 by omega)]
  apply is_prime_eq_false_of_divisor mm (by omega)
  rcases hres with h | h | h
  · exact Or.inl ((Nat.dvd_mod_iff (by norm_num)).mp (hmod ▸ h))
  · exact Or.inr (Or.inl ((Nat.dvd_mod_iff (by norm_num)).mp (hmod ▸ h)))
  · exact Or.inr (Or.inr ((Nat.dvd_mod_iff (by norm_num)).mp (hmod ▸ h)))

/-- The search loop, started at a candidate `c ≥ 7`, returns the least number
at or above `c` that passes `is_prime`. -/
theorem next_prime_loop_spec :
    ∀ (fuel c p : Nat), 7 ≤ c → next_prime_loop fuel c = some p →
      c ≤ p ∧ is_prime p = true ∧ ∀ mm, c ≤ mm → mm < p → is_prime mm = false := by
  intro fuel
  induction fuel with
  | zero =>
    intro c p h7 heq
    simp [next_prime_loop] at heq
  | succ f ih =>
    intro c p h7 heq
    rw [next_prime_loop] at heq
    by_cases hp : is_prime c = true
    · rw [if_pos hp] at heq
      obtain rfl : c = p := Option.some.inj heq
      exact ⟨Nat.le_refl c, hp, fun mm hm1 hm2 => by omega⟩
    · rw [if_neg hp] at heq
      have hr : c % 30 < 30 := Nat.mod_lt c (by omega)
      have hgap1 : 1 ≤ gap (c % 30) := gap_pos (c % 30) hr
      have hrec := ih (c + gap (c % 30)) p (by omega) heq
      refine ⟨by omega, hrec.2.1, ?_⟩
      intro mm hm1 hm2
      by_cases hmc : mm = c
      · subst hmc
        revert hp
        cases is_prime mm <;> simp
      · by_cases hlt : mm < c + gap (c % 30)
        · exact between_candidates_false c mm h7 (by omega) hlt
        · exact hrec.2.2 mm (by omega) hm2

theorem next_candidate_ge (n : Nat) (h5 : 5 ≤ n) : 7 ≤ next_candidate n ∧ n < next_candidate n := by
  simp only [next_candidate, Nat.and_one_is_mod]
  split
  · have hr : (n + 1 + n % 2) % 30 < 30 := Nat.mod_lt _ (by omega)
    have := gap_pos ((n + 1 + n % 2) % 30) hr
    omega
  · omega

/-- Between `n` and the first candidate, `is_prime` rejects everything. -/
theorem before_candidate_false (n mm : Nat) (h5 : 5 ≤ n) (h1 : n < mm)
    (h2 : mm < next_candidate n) : is_prime mm = false := by
  simp only [next_candidate, Nat.and_one_is_mod] at h2
  by_cases hodd : (n + 1 + n % 2) % 3 = 0 ∨ (n + 1 + n % 2) % 5 = 0
  · rw [if_pos hodd] at h2
    by_cases hfst : mm < n + 1 + n % 2
    · -- mm is the skipped even successor of an odd n
      apply is_prime_eq_false_of_divisor mm (by omega)
      exact Or.inl (by omega)
    · by_cases heq : mm = n + 1 + n % 2
      · subst heq
        apply is_prime_eq_false_of_divisor _ (by omega)
        rcases hodd with h | h
        · exact Or.inr (Or.inl (by omega))
        · exact Or.inr (Or.inr (by omega))
      · exact between_candidates_false (n + 1 + n % 2) mm (by omega) (by omega) h2
  · rw [if_neg hodd] at h2
    -- only the even successor of an odd n can lie strictly between
    apply is_prime_eq_false_of_divisor mm (by omega)
    exact Or.inl (by omega)

/-- Whenever the `next_prime` search terminates within fuel (and delegation to
gmpy2 is not required), the result is the smallest integer strictly greater
than `n` that passes `is_prime`. -/
theorem next_prime_passer_spec (fuel n p : Nat) (h : next_prime fuel n = some p) :
    is_prime p = true ∧ n < p ∧ ∀ mm, n < mm → mm < p → is_prime mm = false := by
  rw [next_prime] at h
  by_cases hbig : 512 < bit_length n
  · rw [if_pos hbig] at h
    cases h
  rw [if_neg hbig] at h
  by_cases h2 : n < 2
  · rw [if_pos h2] at h
    obtain rfl : (2 : Nat) = p := Option.some.inj h
    refine ⟨by decide, by omega, ?_⟩
    intro mm h1 hlt
    obtain rfl : mm = 1 := by omega
    decide
  rw [if_neg h2] at h
  by_cases h5 : n < 5
  · rw [if_pos h5] at h
    interval_cases n
    · obtain rfl : (3 : Nat) = p := Option.some.inj h
      exact ⟨by decide, by omega, fun mm h1 hlt => by omega⟩
    · obtain rfl : (5 : Nat) = p := Option.some.inj h
      refine ⟨by decide, by omega, ?_⟩
      intro mm h1 hlt
      obtain rfl : mm = 4 := by omega
      decide
    · obtain rfl : (5 : Nat) = p := Option.some.inj h
      refine ⟨by decide, by omega, ?_⟩
      intro mm h1 hlt
      omega
  rw [if_neg h5] at h
  have h5' : 5 ≤ n := by omega
  obtain ⟨hc7, hcn⟩ := next_candidate_ge n h5'
  have hloop := next_prime_loop_spec fuel (next_candidate n) p hc7 h
  refine ⟨hloop.2.1, by omega, ?_⟩
  intro mm h1 hlt
  by_cases hbefore : mm < next_candidate n
  · exact before_candidate_false n mm h5' h1 hbefore
  · exact hloop.2.2 mm (by omega) hlt

/-- C8 (amended): whenever `next_prime` terminates within fuel (and delegation
to gmpy2 is not required), it returns the smallest integer strictly greater
than `n` that passes `is_prime` -- the smallest prime greater than `n`
exactly when `is_prime` is accurate on the traversed interval.  The spec's
concrete vectors hold: 1000 -> 1009, 100 -> 101, {2,3,4} -> {3,5,5}, and 2
for n < 2. -/
theorem next_prime_least_passer :
    (∀ fuel n p, next_prime fuel n = some p →
      is_prime p = true ∧ n < p ∧ ∀ mm, n < mm → mm < p → is_prime mm = false) ∧
    next_prime 10 1000 = some 1009 ∧ next_prime 10 100 = some 101 ∧
    next_prime 10 0 = some 2 ∧ next_prime 10 1 = some 2 ∧ next_prime 10 2 = some 3 ∧
    next_prime 10 3 = some 5 ∧ next_prime 10 4 = some 5 :=
  ⟨fun fuel n p h => next_prime_passer_spec fuel n p h, by decide, by decide, by decide,
    by decide, by decide, by decide, by decide⟩

/-- Witness for `next_prime_least_passer`: at `n = 1000` the returned 1009
passes `is_prime`, exceeds 1000, and `is_prime` rejects 1001..1008
(instantiated at 1007). -/
theorem next_prime_least_passer_witness :
    is_prime 1009 = true ∧ 1000 < 1009 ∧ is_prime 1007 = false :=
  let h := next_prime_least_passer.1 10 1000 1009 (by decide)
  ⟨h.1, h.2.1, h.2.2 1007 (by omega) (by omega)⟩

/-- C8 counterexample: 1122004669633 = 611557 * 1834669 is a strong
pseudoprime to all four fixed witness bases, so `next_prime(1122004669632)`
returns it although it is composite -- `next_prime` does not always return
the smallest prime above its (well under 512-bit) input. -/
theorem next_prime_composite_counterexample :
    bit_length 1122004669632 ≤ 512 ∧
      next_prime 10 1122004669632 = some 1122004669633 ∧
      ¬ Nat.Prime 1122004669633 := by
  refine ⟨by decide, by decide, ?_⟩
  intro hp
  have hdvd : (611557 : Nat) ∣ 1122004669633 := ⟨1834669, by norm_num⟩
  rcases hp.eq_one_or_self_of_dvd 611557 hdvd with h | h <;> omega

/-- C5 counterexample: for alphabet "01" and key length 1 (modulus 2), the
derived multiplier is `next_prime(int(1 * 1.618...)) = next_prime(1) = 2`,
which is neither strictly greater than nor coprime to the modulus `2^1`. -/
theorem generate_prime_counterexample :
    "01".toList.Nodup ∧ 2 ≤ "01".toList.length ∧ 1 ≤ (1 : Nat) ∧
      generate_prime "01".toList 1 PM_NUM PM_DEN 100 = some 2 ∧
      ¬ ("01".toList.length ^ 1 < 2) ∧ Nat.gcd 2 ("01".toList.length ^ 1) ≠ 1 :=
  ⟨by decide, by decide, by decide, by decide, by decide, by decide⟩

/-- C5 (amended): whenever the modulus `|A|^L` is at least 3 and the prime
search terminates, the lazily derived multiplier is an odd number strictly
greater than `|A|^L` that passes `is_prime` -- hence a prime coprime to the
modulus whenever `is_prime` is accurate for it (which holds below
2,047,698,921); for `|A|^L = 2` the derived multiplier is 2, which shares the
factor 2 with the modulus. -/
theorem generate_prime_spec (A : List Char) (L fuel q : Nat)
    (h3 : 3 ≤ A.length ^ L)
    (h : generate_prime A L PM_NUM PM_DEN fuel = some q) :
    A.length ^ L < q ∧ is_prime q = true ∧ q % 2 = 1 := by
  rw [generate_prime] at h
  have htge : A.length ^ L ≤ (A.length ^ L - 1) * PM_NUM / PM_DEN := by
    rw [Nat.le_div_iff_mul_le (show 0 < PM_DEN by norm_num [PM_DEN])]
    have step1 : (A.length ^ L) * (2 * PM_DEN) ≤ (A.length ^ L - 1) * (3 * PM_DEN) := by
      have hcoef : 2 * (A.length ^ L) ≤ 3 * (A.length ^ L - 1) := by omega
      calc (A.length ^ L) * (2 * PM_DEN) = (2 * (A.length ^ L)) * PM_DEN := by ring
        _ ≤ (3 * (A.length ^ L - 1)) * PM_DEN := Nat.mul_le_mul_right PM_DEN hcoef
        _ = (A.length ^ L - 1) * (3 * PM_DEN) := by ring
    have step2 : (A.length ^ L - 1) * (3 * PM_DEN) ≤ (A.length ^ L - 1) * (2 * PM_NUM) :=
      Nat.mul_le_mul_left _ (by norm_num [PM_NUM, PM_DEN])
    have hchain : (A.length ^ L) * PM_DEN * 2 ≤ (A.length ^ L - 1) * PM_NUM * 2 := by
      calc (A.length ^ L) * PM_DEN * 2 = (A.length ^ L) * (2 * PM_DEN) := by ring
        _ ≤ (A.length ^ L - 1) * (3 * PM_DEN) := step1
        _ ≤ (A.length ^ L - 1) * (2 * PM_NUM) := step2
        _ = (A.length ^ L - 1) * PM_NUM * 2 := by ring
    omega
  have hspec := next_prime_passer_spec fuel ((A.length ^ L - 1) * PM_NUM / PM_DEN) q h
  have hq2 : q ≠ 2 := by omega
  exact ⟨by omega, hspec.1, is_prime_odd q hspec.1 hq2⟩

/-- Witness for `generate_prime_spec`: alphabet "01", key length 2
(modulus 4): the derived multiplier is 5. -/
theorem generate_prime_spec_witness :
    "01".toList.length ^ 2 < 5 ∧ is_prime 5 = true ∧ 5 % 2 = 1 :=
  generate_prime_spec "01".toList 2 100 5 (by decide) (by decide)

/-! ### Schema compilation and packing -/

theorem cfi_aux_append (l1 l2 : List (String × Nat)) (sh : Nat) :
    cfi_aux (l1 ++ l2) sh = cfi_aux l1 sh ++ cfi_aux l2 (sh + (l1.map (fun f => f.2)).sum) := by
  induction l1 generalizing sh with
  | nil => simp [cfi_aux]
  | cons f rest ih => simp [cfi_aux, ih, Nat.add_assoc]

theorem cfi_aux_keys (l : List (String × Nat)) (sh : Nat) :
    (cfi_aux l sh).map Prod.fst = l.map Prod.fst := by
  induction l generalizing sh with
  | nil => rfl
  | cons f rest ih => simp [cfi_aux, ih]

theorem lookup_append_of_not_mem (l1 l2 : List (String × Nat × Nat)) (a : String)
    (h : a ∉ l1.map Prod.fst) : (l1 ++ l2).lookup a = l2.lookup a := by
  induction l1 with
  | nil => rfl
  | cons x rest ih =>
    obtain ⟨k, v⟩ := x
    simp only [List.map_cons, List.mem_cons] at h
    push_neg at h
    have hbeq : (a == k) = false := beq_eq_false_iff_ne.mpr h.1
    rw [List.cons_append]
    simp [List.lookup, hbeq, ih h.2]

/-- The compiled entry of the field at declaration index `i` of a schema with
distinct names: its declared bits and, as shift, the sum of the bits of all
fields declared after it. -/
theorem get_field_info_eq (s : List (String × Nat)) (hnd : (s.map Prod.fst).Nodup)
    (i : Nat) (hi : i < s.length) :
    get_field_info s (s.get ⟨i, hi⟩).1 =
      some ((s.get ⟨i, hi⟩).2, ((s.drop (i + 1)).map (fun f => f.2)).sum) := by
  have hdecomp : s.drop i = s.get ⟨i, hi⟩ :: s.drop (i + 1) := List.drop_eq_get_cons hi
  have hrev : s.reverse =
      (s.drop (i + 1)).reverse ++ (s.get ⟨i, hi⟩ :: (s.take i).reverse) := by
    conv_lhs => rw [← List.take_append_drop i s]
    rw [List.reverse_append, hdecomp, List.reverse_cons, List.append_assoc]
    simp
  have hnotmem : (s.get ⟨i, hi⟩).1 ∉
      (cfi_aux (s.drop (i + 1)).reverse 0).map Prod.fst := by
    rw [cfi_aux_keys]
    have hsub : ((s.drop i).map Prod.fst).Sublist (s.map Prod.fst) :=
      (List.drop_sublist i s).map Prod.fst
    have hnd2 : ((s.drop i).map Prod.fst).Nodup := hnd.sublist hsub
    rw [hdecomp, List.map_cons] at hnd2
    have hmain := (List.nodup_cons.mp hnd2).1
    simpa using hmain
  rw [get_field_info, field_info, hrev, cfi_aux_append,
    lookup_append_of_not_mem _ _ _ hnotmem]
  simp [cfi_aux, List.lookup, List.map_reverse, List.sum_reverse]

/-- C4: compilation assigns each field a shift equal to the sum of the bits of
all fields declared after it (the last-declared field gets shift 0),
`total_bits` is the sum of all bits, and `max_bits` is `2 ^ total_bits - 1`. -/
theorem schema_compilation_spec (s : List (String × Nat)) (hv : validate_schema s = true) :
    (∀ i (hi : i < s.length),
      get_field_info s (s.get ⟨i, hi⟩).1 =
        some ((s.get ⟨i, hi⟩).2, ((s.drop (i + 1)).map (fun f => f.2)).sum)) ∧
    total_bits s = (s.map (fun f => f.2)).sum ∧
    max_bits s = 2 ^ total_bits s - 1 := by
  have hnd : (s.map Prod.fst).Nodup := by
    have hv' := hv
    rw [validate_schema, Bool.and_eq_true, Bool.and_eq_true] at hv'
    exact of_decide_eq_true hv'.2
  refine ⟨fun i hi => get_field_info_eq s hnd i hi, rfl, ?_⟩
  rw [max_bits, Nat.shiftLeft_eq, one_mul]

/-- Witness for `schema_compilation_spec`: the spec's example schema
`[{a,1},{b,2}]` compiles to shifts a -> 2, b -> 0. -/
theorem schema_compilation_spec_witness :
    get_field_info [("a", 1), ("b", 2)] "a" = some (1, 2) ∧
      get_field_info [("a", 1), ("b", 2)] "b" = some (2, 0) := by
  have h := schema_compilation_spec [("a", 1), ("b", 2)] (by decide)
  have h0 := h.1 0 (by decide)
  have h1 := h.1 1 (by decide)
  exact ⟨h0.trans (by decide), h1.trans (by decide)⟩

/-- C7: with an attached Obfuskey, Obfusbit construction of a valid schema
fails (capacity MaximumValueError, no instance produced) exactly when the
schema's `max_bits` exceeds the Obfuskey's `maximum_value`. -/
theorem obfusbit_capacity (s : List (String × Nat)) (k : Obfuskey)
    (hv : validate_schema s = true) :
    obfusbit_init s (some k) = none ↔ (max_bits s : Int) > k.maximum_value := by
  unfold obfusbit_init
  rw [if_neg (not_not_intro hv)]
  show (if (max_bits s : Int) > k.maximum_value then none
    else some (Obfusbit.mk s (some k))) = none ↔ _
  by_cases h : (max_bits s : Int) > k.maximum_value
  · simp [h]
  · simp [h]

/-- Witness for `obfusbit_capacity`: a 13-bit schema with an Obfuskey whose
maximum_value is 4095 < 8191 is rejected at construction. -/
theorem obfusbit_capacity_witness :
    obfusbit_init [("x", 13)] (some (Obfuskey.mk "01".toList 12 (some 5) PM_NUM PM_DEN)) =
      none :=
  (obfusbit_capacity [("x", 13)] (Obfuskey.mk "01".toList 12 (some 5) PM_NUM PM_DEN)
    (by decide)).mpr (by decide)

theorem nat_and_two_pow_sub_one (n i : Nat) : n &&& (2 ^ i - 1) = n % 2 ^ i := by
  apply Nat.eq_of_testBit_eq
  intro j
  simp [Nat.testBit_and, Nat.testBit_mod_two_pow, Nat.testBit_two_pow_sub_one, Bool.and_comm]

theorem shift_mask_eq (p sh b T : Nat) (h : sh + b ≤ T) :
    ((p % 2 ^ T) >>> sh) &&& ((1 <<< b) - 1) = (p >>> sh) &&& ((1 <<< b) - 1) := by
  rw [Nat.shiftLeft_eq, one_mul, nat_and_two_pow_sub_one, nat_and_two_pow_sub_one,
    Nat.shiftRight_eq_div_pow, Nat.shiftRight_eq_div_pow]
  have hT : 2 ^ T = 2 ^ sh * 2 ^ (T - sh) := by
    rw [← pow_add]
    congr 1
    omega
  rw [hT, Nat.mod_mul_right_div_self, Nat.mod_mod_of_dvd _ (pow_dvd_pow 2 (by omega))]

/-- Every declared field of a duplicate-free schema has a compiled entry, and
its shift plus width stays within `total_bits`. -/
theorem gfi_of_mem (s : List (String × Nat)) (hnd : (s.map Prod.fst).Nodup)
    (f : String × Nat) (hf : f ∈ s) :
    ∃ sh, get_field_info s f.1 = some (f.2, sh) ∧ sh + f.2 ≤ total_bits s := by
  obtain ⟨i, hget⟩ := List.mem_iff_get.mp hf
  have h := get_field_info_eq s hnd i.1 i.2
  simp only [Fin.eta] at h
  rw [hget] at h
  refine ⟨_, h, ?_⟩
  have hsplit : total_bits s =
      ((s.take i.1).map (fun f => f.2)).sum + ((s.drop i.1).map (fun f => f.2)).sum := by
    rw [total_bits]
    conv_lhs => rw [← List.take_append_drop i.1 s]
    rw [List.map_append, List.sum_append]
  have hdecomp : s.drop i.1 = s.get i :: s.drop (i.1 + 1) := by
    have hd := List.drop_eq_get_cons (l := s) i.2
    simpa [Fin.eta] using hd
  rw [hdecomp, hget, List.map_cons, List.sum_cons] at hsplit
  omega

theorem unpack_aux_eq (s : List (String × Nat)) (p : Nat) :
    ∀ l : List (String × Nat), (∀ f ∈ l, (get_field_info s f.1).isSome) →
      unpack_aux s p l = some (l.map (fun f =>
        (f.1, (p >>> ((get_field_info s f.1).getD (0, 0)).2) &&&
          ((1 <<< ((get_field_info s f.1).getD (0, 0)).1) - 1)))) := by
  intro l
  induction l with
  | nil => intro _; rfl
  | cons f rest ih =>
    intro h
    have hf := h f (List.mem_cons_self f rest)
    obtain ⟨info, hinfo⟩ := Option.isSome_iff_exists.mp hf
    simp only [unpack_aux, hinfo, ih (fun g hg => h g (List.mem_cons_of_mem f hg)),
      List.map_cons, Option.getD_some]

/-- C10: unpack (non-obfuscated) performs no range check: it succeeds on every
non-negative packed integer, each field being
`(packed >> shift) & ((1 << bits) - 1)`; consequently
`unpack(p) = unpack(p % 2^total_bits)` -- inputs beyond the schema's capacity
are silently truncated rather than rejected. -/
theorem unpack_truncates (s : List (String × Nat)) (okey : Option Obfuskey) (p : Nat)
    (hv : validate_schema s = true) :
    unpack ⟨s, okey⟩ p = some (s.map (fun f =>
        (f.1, (p >>> ((get_field_info s f.1).getD (0, 0)).2) &&&
          ((1 <<< ((get_field_info s f.1).getD (0, 0)).1) - 1)))) ∧
    unpack ⟨s, okey⟩ p = unpack ⟨s, okey⟩ (p % 2 ^ total_bits s) := by
  have hnd : (s.map Prod.fst).Nodup := by
    have hv' := hv
    rw [validate_schema, Bool.and_eq_true, Bool.and_eq_true] at hv'
    exact of_decide_eq_true hv'.2
  have hsome : ∀ f ∈ s, (get_field_info s f.1).isSome := by
    intro f hf
    obtain ⟨sh, hsh, _⟩ := gfi_of_mem s hnd f hf
    rw [hsh]
    rfl
  have h1 := unpack_aux_eq s p s hsome
  have h2 := unpack_aux_eq s (p % 2 ^ total_bits s) s hsome
  constructor
  · show unpack_aux s p s = _
    exact h1
  · show unpack_aux s p s = unpack_aux s (p % 2 ^ total_bits s) s
    rw [h1, h2]
    congr 1
    apply List.map_congr_left
    intro f hf
    obtain ⟨sh, hsh, hb⟩ := gfi_of_mem s hnd f hf
    rw [hsh]
    simp only [Option.getD_some]
    rw [shift_mask_eq p sh f.2 (total_bits s) hb]

/-- Witness for `unpack_truncates`: the spec's 13-bit example schema and the
out-of-range packed integer 10000. -/
theorem unpack_truncates_witness :
    unpack ⟨[("id", 10), ("type", 2), ("flag", 1)], none⟩ 10000 =
      unpack ⟨[("id", 10), ("type", 2), ("flag", 1)], none⟩
        (10000 % 2 ^ total_bits [("id", 10), ("type", 2), ("flag", 1)]) :=
  (unpack_truncates [("id", 10), ("type", 2), ("flag", 1)] none 10000 (by decide)).2

/-- C2 evaluation at the failing input: `pack` never runs `validate_values`.
With the spec's example schema and an input carrying the extra key
"extra_field", `pack` silently returns 805 while `validate_values` rejects the
same input with the unexpected-fields error (the repo's own test
`test_pack_raises_valueerror_extra_field` expects that rejection from
`pack`). -/
theorem pack_ignores_extra_fields :
    pack ⟨[("id", 10), ("type", 2), ("flag", 1)], none⟩
        [("id", 100), ("type", 2), ("flag", 1), ("extra_field", 5)] = some 805 ∧
      validate_values [("id", 10), ("type", 2), ("flag", 1)]
        [("id", 100), ("type", 2), ("flag", 1), ("extra_field", 5)] = none :=
  ⟨by decide, by decide⟩

end Obf
